import Mathlib

/-!
Shallow embedding of the libxid identifier generator (src/src/lib.rs).

An identifier is a 12-byte value: 4 bytes big-endian seconds-since-epoch,
3 bytes machine id, 2 bytes process id (big-endian), 3 bytes counter
(big-endian).  Bytes are modelled as natural numbers below 256; machine
integers (u32, usize) as natural numbers reduced modulo 2^32 / 2^64 where
the Rust code truncates or wraps.  Fallible operations return Except;
a Rust panic (unwrap) is modelled by Option.none.
-/

namespace LibXid

/-- Size of usize on the target platform (64-bit), modelling wrap of
AtomicUsize fetch_add. -/
def usizeSize : Nat := 2 ^ 64

/-- An xid identifier: the 12-byte array ID.val, each byte a Nat < 256.
Mirrors struct ID with val of type byte array of length ID_LEN = 12. -/
structure ID where
  val : List Nat
deriving DecidableEq

/-- Well-formedness of an ID: exactly 12 bytes, each below 256. -/
def ID.Wf (id : ID) : Prop := id.val.length = 12 ∧ ∀ b ∈ id.val, b < 256

instance (id : ID) : Decidable id.Wf :=
  inferInstanceAs (Decidable (id.val.length = 12 ∧ ∀ b ∈ id.val, b < 256))

/-- The generator state: an atomic counter (usize), a 3-byte machine id and
a u32 process id.  Mirrors struct Generator. -/
structure Generator where
  counter : Nat
  machine_id : List Nat
  pid : Nat
deriving DecidableEq

/-- Well-formedness of a generator: counter a usize value, machine id three
bytes, pid a u32 value. -/
def Generator.Wf (g : Generator) : Prop :=
  g.counter < usizeSize ∧ g.machine_id.length = 3 ∧
    (∀ b ∈ g.machine_id, b < 256) ∧ g.pid < 2 ^ 32

/-- Generator.generate of the source: builds the 12-byte buffer from the
timestamp truncated to u32 (big-endian), the machine id bytes, the low 16
bits of the pid (big-endian), and the fetch_add(1, SeqCst) snapshot of the
counter reduced to its low 24 bits (big-endian).  The returned pair carries
the identifier and the generator with the incremented counter (fetch_add
returns the previous value and wraps at the usize size). -/
def Generator.generate (g : Generator) (ts : Nat) : ID × Generator :=
  let t := ts % 2 ^ 32
  let i := g.counter
  (⟨[t / 2 ^ 24 % 256, t / 2 ^ 16 % 256, t / 2 ^ 8 % 256, t % 256,
     g.machine_id.getD 0 0, g.machine_id.getD 1 0, g.machine_id.getD 2 0,
     g.pid / 2 ^ 8 % 256, g.pid % 256,
     i / 2 ^ 16 % 256, i / 2 ^ 8 % 256, i % 256]⟩,
   { g with counter := (g.counter + 1) % usizeSize })

/-- Generator.new_id_with_time of the source.  A SystemTime is modelled as a
signed count t of nanoseconds since the Unix epoch; duration_since(UNIX_EPOCH)
succeeds exactly when t is not before the epoch, and as_secs is the number of
whole seconds.  The error type mirrors SystemTimeError. -/
def Generator.new_id_with_time (g : Generator) (t : Int) : Except Unit (ID × Generator) :=
  if 0 ≤ t then Except.ok (g.generate (t / 1000000000).toNat) else Except.error ()

/-- Generator.new_id of the source: new_id_with_time applied to the current
wall clock, the clock being passed explicitly as nanoseconds since the epoch. -/
def Generator.new_id (g : Generator) (now : Int) : Except Unit (ID × Generator) :=
  g.new_id_with_time now

/-- ID.machine of the source: bytes 4 to 6. -/
def ID.machine (id : ID) : List Nat :=
  [id.val.getD 4 0, id.val.getD 5 0, id.val.getD 6 0]

/-- ID.pid of the source: big-endian u16 from bytes 7 and 8. -/
def ID.pid (id : ID) : Nat := id.val.getD 7 0 * 2 ^ 8 + id.val.getD 8 0

/-- ID.time of the source: the big-endian u32 from bytes 0 to 3, returned as
seconds since the Unix epoch (the source returns UNIX_EPOCH plus this many
seconds). -/
def ID.time (id : ID) : Nat :=
  id.val.getD 0 0 * 2 ^ 24 + id.val.getD 1 0 * 2 ^ 16 +
    id.val.getD 2 0 * 2 ^ 8 + id.val.getD 3 0

/-- ID.counter of the source: big-endian 24-bit value from bytes 9 to 11. -/
def ID.counter (id : ID) : Nat :=
  id.val.getD 9 0 * 2 ^ 16 + id.val.getD 10 0 * 2 ^ 8 + id.val.getD 11 0

/-- The 32-symbol alphabet pushed into the data_encoding Specification by
ID.encoding: digits 0 to 9 then letters a to v. -/
def symbols : List Char := "0123456789abcdefghijklmnopqrstuv".data

/-- ID.encoding of the source, modelled from the data_encoding crate: the
Specification built from a symbols string yields an Encoding exactly when the
number of symbols is a power of two between 2 and 64 (the bit width of one
symbol), every symbol is ASCII, and no symbol repeats; otherwise it is a
SpecificationError.  The id argument is unused, as in the source. -/
def ID.encoding (_id : ID) : Except Unit (List Char) :=
  if (symbols.length = 2 ∨ symbols.length = 4 ∨ symbols.length = 8 ∨
      symbols.length = 16 ∨ symbols.length = 32 ∨ symbols.length = 64) ∧
      (∀ c ∈ symbols, c.toNat < 128) ∧ symbols.Nodup
  then Except.ok symbols else Except.error ()

/-- The eight bits of a byte, most significant first. -/
def byteBits (b : Nat) : List Nat :=
  [b / 128 % 2, b / 64 % 2, b / 32 % 2, b / 16 % 2,
   b / 8 % 2, b / 4 % 2, b / 2 % 2, b % 2]

/-- Grouping of a bit stream into blocks of five bits, as base-32 consumes
it; a trailing group shorter than five bits is dropped (the encoder pads the
stream first so nothing is dropped). -/
def chunk5 : List Nat → List (List Nat)
  | a :: b :: c :: d :: e :: rest => [a, b, c, d, e] :: chunk5 rest
  | _ => []

/-- Value of a block of bits, most significant first. -/
def bits5 (l : List Nat) : Nat := l.foldl (fun acc x => acc * 2 + x) 0

/-- Zero-padding of the bit stream to a multiple of five bits, as the
unpadded base-32 encoder does before grouping. -/
def padBits (l : List Nat) : List Nat :=
  l ++ List.replicate ((5 - l.length % 5) % 5) 0

/-- The base-32 digit sequence of a byte string: bytes become bits (most
significant first), the stream is zero-padded to a multiple of five bits and
read in five-bit groups. -/
def encodeDigits (bytes : List Nat) : List Nat :=
  (chunk5 (padBits (bytes.flatMap byteBits))).map bits5

/-- The symbol of one base-32 digit. -/
def alphaChar (d : Nat) : Char := symbols.getD d '0'

/-- ID.encode of the source: the unpadded base-32 encoding of the 12 bytes
with the Specification built by ID.encoding.  The unwrap of the
Specification result is modelled by the error branch returning the empty
string; the encoding theorem shows that branch unreachable. -/
def ID.encode (id : ID) : String :=
  match id.encoding with
  | Except.ok syms => ⟨(encodeDigits id.val).map (fun d => syms.getD d '0')⟩
  | Except.error _ => ""

/-- Error type of the decode operation. -/
inductive CodecError where
  | invalidLength
  | invalidChar
deriving DecidableEq

/-- Index of a character in the alphabet, none when the character is not an
alphabet symbol. -/
def charToDigit (c : Char) : Option Nat := symbols.findIdx? (fun x => x == c)

/-- Digit values of a character string, none when some character is outside
the alphabet. -/
def decodeDigits : List Char → Option (List Nat)
  | [] => some []
  | c :: cs =>
    match charToDigit c, decodeDigits cs with
    | some d, some ds => some (d :: ds)
    | _, _ => none

/-- Big-endian decomposition of a natural number into a fixed number of
bytes. -/
def natToBytes : Nat → Nat → List Nat
  | 0, _ => []
  | k + 1, n => natToBytes k (n / 256) ++ [n % 256]

/-- Value of a digit string in a radix, most significant digit first. -/
def radixVal (b : Nat) (ds : List Nat) : Nat :=
  ds.foldl (fun acc d => acc * b + d) 0

/-- Modelled from the spec: decode is absent from the source; the spec
requires the inverse of encode, rejecting any string that is not exactly 20
characters or that holds a character outside the alphabet with a CodecError.
The 20 digits are read back as a 100-bit value whose low four bits are the
zero padding, and the remaining 96 bits are the 12 bytes. -/
def decode (s : String) : Except CodecError ID :=
  if s.data.length = 20 then
    match decodeDigits s.data with
    | some ds => Except.ok ⟨natToBytes 12 (radixVal 32 ds / 16)⟩
    | none => Except.error CodecError.invalidChar
  else Except.error CodecError.invalidLength

/-- The outside world read during generator construction: the result of the
platform machine-id file read, the hostname (none when it is not valid
Unicode, which makes into_string fail), the random bytes drawn for the
machine-id fallback and for the counter seed, the OS process id, and the
result of the cpuset file read. -/
structure Env where
  platform_machine_id : Except Unit String
  hostname : Option String
  rand_machine : List Nat
  rand_counter : List Nat
  os_pid : Nat
  cpuset : Except Unit (List Nat)

/-- hostname_string of the source: gethostname().into_string().unwrap().
The conversion fails when the hostname is not valid Unicode, and unwrap then
panics; the panic is modelled by none. -/
def hostname_string (env : Env) : Option String := env.hostname

/-- read_machine_id of the source, parametric in the md5 digest (an external
crate; only its first three bytes are used).  A failing or empty platform id
degrades to the hostname; an empty identifier degrades to three random
bytes; a panic inside hostname_string propagates as none. -/
def read_machine_id (md5_3 : String → List Nat) (env : Env) : Option (List Nat) :=
  let idStr : Option String :=
    match env.platform_machine_id with
    | Except.ok x => if 0 < x.length then some x else hostname_string env
    | Except.error _ => hostname_string env
  match idStr with
  | none => none
  | some id =>
    if id.length = 0 then
      some [env.rand_machine.getD 0 0, env.rand_machine.getD 1 0,
            env.rand_machine.getD 2 0]
    else some (md5_3 id)

/-- rand_int of the source: three random bytes read as a big-endian 24-bit
value, used as the first counter value. -/
def rand_int (env : Env) : Nat :=
  env.rand_counter.getD 0 0 * 2 ^ 16 + env.rand_counter.getD 1 0 * 2 ^ 8 +
    env.rand_counter.getD 2 0

/-- get_pid of the source, parametric in the crc32 checksum (an external
crate): the OS pid, xor-ed with the checksum of the cpuset file when that
file is readable. -/
def get_pid (crc32 : List Nat → Nat) (env : Env) : Nat :=
  match env.cpuset with
  | Except.error _ => env.os_pid
  | Except.ok buff => Nat.xor env.os_pid (crc32 buff)

/-- new_generator of the source: the counter seed, the machine id and the
pid; a panic during machine-id derivation propagates as none. -/
def new_generator (md5_3 : String → List Nat) (crc32 : List Nat → Nat)
    (env : Env) : Option Generator :=
  match read_machine_id md5_3 env with
  | none => none
  | some m => some { counter := rand_int env, machine_id := m, pid := get_pid crc32 env }

/-- Sequential execution of n generate calls against one generator; by
atomicity of the fetch_add this is the linearization of any concurrent
execution of n callers, a schedule assigning each caller its position. -/
def generateSeq (g : Generator) (ts : Nat) : Nat → List ID
  | 0 => []
  | n + 1 =>
    let p := g.generate ts
    p.1 :: generateSeq p.2 ts n

/-- A concrete well-formed generator used by witness statements. -/
def gW : Generator := ⟨5, [1, 2, 3], 70000⟩

/-- A stand-in md5 digest used by concrete statements; the claims settled
here do not depend on digest values. -/
def md5z : String → List Nat := fun _ => [0, 0, 0]

/-- A stand-in crc32 checksum used by concrete statements. -/
def crc0 : List Nat → Nat := fun _ => 0

/-- An environment whose platform machine-id read fails and whose hostname
is not valid Unicode. -/
def envBad : Env :=
  ⟨Except.error (), none, [1, 2, 3], [1, 2, 3], 1, Except.error ()⟩

/-- An environment with a valid-Unicode hostname and a failing platform
machine-id read. -/
def envGood : Env :=
  ⟨Except.error (), some "h", [9, 9, 9], [1, 2, 3], 5, Except.error ()⟩

/-- An environment whose three random counter-seed bytes are all zero. -/
def envZero : Env :=
  ⟨Except.error (), some "h", [9, 9, 9], [0, 0, 0], 1, Except.error ()⟩

/-- Two concrete well-formed identifiers used by witness statements. -/
def idA : ID := ⟨[0, 0, 0, 0, 0, 0, 0, 0, 0, 0, 0, 0]⟩

/-- The successor of idA in byte order. -/
def idB : ID := ⟨[0, 0, 0, 0, 0, 0, 0, 0, 0, 0, 0, 1]⟩

/-- Folding digits onto a nonzero accumulator shifts the accumulator past
the digit block. -/
theorem foldl_radix_shift (b : Nat) :
    ∀ (l : List Nat) (a : Nat),
      l.foldl (fun acc d => acc * b + d) a = a * b ^ l.length + radixVal b l := by
  intro l
  induction l with
  | nil => intro a; simp [radixVal]
  | cons x xs ih =>
    intro a
    have hx : radixVal b (x :: xs) = x * b ^ xs.length + radixVal b xs := by
      show xs.foldl (fun acc d => acc * b + d) (0 * b + x) = x * b ^ xs.length + radixVal b xs
      rw [Nat.zero_mul, Nat.zero_add, ih x]
    simp only [List.foldl, List.length_cons]
    rw [ih (a * b + x), hx]
    ring

/-- Value of a digit string with the most significant digit split off. -/
theorem radixVal_cons (b x : Nat) (xs : List Nat) :
    radixVal b (x :: xs) = x * b ^ xs.length + radixVal b xs := by
  show xs.foldl (fun acc d => acc * b + d) (0 * b + x) = x * b ^ xs.length + radixVal b xs
  rw [Nat.zero_mul, Nat.zero_add, foldl_radix_shift b xs x]

/-- Value of a digit string with the least significant digit split off. -/
theorem radixVal_snoc (b x : Nat) (l : List Nat) :
    radixVal b (l ++ [x]) = radixVal b l * b + x := by
  unfold radixVal
  rw [List.foldl_append]
  rfl

/-- A string of digits below the radix has value below radix to the length. -/
theorem radixVal_lt (b : Nat) (hb : 0 < b) :
    ∀ l : List Nat, (∀ x ∈ l, x < b) → radixVal b l < b ^ l.length := by
  intro l
  induction l with
  | nil => intro _; simp [radixVal]
  | cons x xs ih =>
    intro h
    rw [radixVal_cons]
    have hx : x < b := h x (List.mem_cons_self x xs)
    have hxs := ih (fun y hy => h y (List.mem_cons_of_mem x hy))
    have hpow : 0 < b ^ xs.length := Nat.pos_pow_of_pos _ hb
    calc x * b ^ xs.length + radixVal b xs
        < x * b ^ xs.length + b ^ xs.length := by omega
      _ = (x + 1) * b ^ xs.length := by ring
      _ ≤ b * b ^ xs.length := Nat.mul_le_mul_right _ hx
      _ = b ^ (x :: xs).length := by rw [List.length_cons]; ring

/-- Inversion of the lexicographic order at a cons pair: either the heads
are related or they agree and the tails are ordered. -/
theorem lex_cons_inv {α : Type} {r : α → α → Prop} {a b : α} {l₁ l₂ : List α}
    (h : List.Lex r (a :: l₁) (b :: l₂)) : r a b ∨ (a = b ∧ List.Lex r l₁ l₂) := by
  cases h with
  | cons h => exact Or.inr ⟨rfl, h⟩
  | rel h => exact Or.inl h

/-- Byte-wise lexicographic order of equal-length digit strings implies
order of their radix values. -/
theorem lex_radix_mono (b : Nat) (hb : 0 < b) :
    ∀ (d₁ d₂ : List Nat), d₁.length = d₂.length →
      (∀ x ∈ d₁, x < b) → (∀ x ∈ d₂, x < b) →
      List.Lex (· < ·) d₁ d₂ → radixVal b d₁ < radixVal b d₂ := by
  intro d₁
  induction d₁ with
  | nil =>
    intro d₂ hlen _ _ hlt
    cases d₂ with
    | nil => cases hlt
    | cons y ys => simp at hlen
  | cons x xs ih =>
    intro d₂ hlen h₁ h₂ hlt
    cases d₂ with
    | nil => cases hlt
    | cons y ys =>
      have hlen' : xs.length = ys.length := by simpa using hlen
      rw [radixVal_cons, radixVal_cons, hlen']
      have hxb : x < b := h₁ x (List.mem_cons_self x xs)
      have hyb : y < b := h₂ y (List.mem_cons_self y ys)
      have hxs : ∀ z ∈ xs, z < b := fun z hz => h₁ z (List.mem_cons_of_mem x hz)
      have hys : ∀ z ∈ ys, z < b := fun z hz => h₂ z (List.mem_cons_of_mem y hz)
      rcases lex_cons_inv hlt with hxy | ⟨hxy, htl⟩
      · have hr1 : radixVal b xs < b ^ ys.length := hlen' ▸ radixVal_lt b hb xs hxs
        have hstep : (x + 1) * b ^ ys.length ≤ y * b ^ ys.length :=
          Nat.mul_le_mul_right _ hxy
        have hexp : x * b ^ ys.length + b ^ ys.length = (x + 1) * b ^ ys.length := by
          ring
        omega
      · have := ih ys hlen' hxs hys htl
        subst hxy
        omega

/-- Order of the radix values of equal-length digit strings implies their
byte-wise lexicographic order. -/
theorem lex_of_radix_lt (b : Nat) (hb : 0 < b) :
    ∀ (d₁ d₂ : List Nat), d₁.length = d₂.length →
      (∀ x ∈ d₁, x < b) → (∀ x ∈ d₂, x < b) →
      radixVal b d₁ < radixVal b d₂ → List.Lex (· < ·) d₁ d₂ := by
  intro d₁
  induction d₁ with
  | nil =>
    intro d₂ hlen _ _ hv
    cases d₂ with
    | nil => simp [radixVal] at hv
    | cons y ys => simp at hlen
  | cons x xs ih =>
    intro d₂ hlen h₁ h₂ hv
    cases d₂ with
    | nil => simp at hlen
    | cons y ys =>
      have hlen' : xs.length = ys.length := by simpa using hlen
      have hxb : x < b := h₁ x (List.mem_cons_self x xs)
      have hyb : y < b := h₂ y (List.mem_cons_self y ys)
      have hxs : ∀ z ∈ xs, z < b := fun z hz => h₁ z (List.mem_cons_of_mem x hz)
      have hys : ∀ z ∈ ys, z < b := fun z hz => h₂ z (List.mem_cons_of_mem y hz)
      rcases Nat.lt_trichotomy x y with hxy | hxy | hxy
      · exact List.Lex.rel hxy
      · subst hxy
        have hr : radixVal b xs < radixVal b ys := by
          rw [radixVal_cons, radixVal_cons, hlen'] at hv
          omega
        exact List.Lex.cons (ih ys hlen' hxs hys hr)
      · exfalso
        have hr2 : radixVal b ys < b ^ ys.length := radixVal_lt b hb ys hys
        have hstep : (y + 1) * b ^ ys.length ≤ x * b ^ ys.length :=
          Nat.mul_le_mul_right _ hxy
        rw [radixVal_cons, radixVal_cons, hlen'] at hv
        have hexp : y * b ^ ys.length + b ^ ys.length = (y + 1) * b ^ ys.length := by
          ring
        omega

/-- Byte-wise lexicographic order of equal-length digit strings agrees with
order of their radix values. -/
theorem lex_iff_radix (b : Nat) (hb : 0 < b)
    (d₁ d₂ : List Nat) (hlen : d₁.length = d₂.length)
    (h₁ : ∀ x ∈ d₁, x < b) (h₂ : ∀ x ∈ d₂, x < b) :
    List.Lex (· < ·) d₁ d₂ ↔ radixVal b d₁ < radixVal b d₂ :=
  ⟨lex_radix_mono b hb d₁ d₂ hlen h₁ h₂, lex_of_radix_lt b hb d₁ d₂ hlen h₁ h₂⟩

/-- The alphabet map is strictly monotone on base-32 digits: the symbol for
a smaller digit is a smaller character. -/
theorem alphaChar_lt_iff :
    ∀ x, x < 32 → ∀ y, y < 32 → (alphaChar x < alphaChar y ↔ x < y) := by decide

/-- The symbol of a base-32 digit belongs to the alphabet. -/
theorem alphaChar_mem : ∀ d, d < 32 → alphaChar d ∈ symbols := by decide

/-- Looking up the symbol of a digit in the alphabet recovers the digit. -/
theorem charToDigit_alpha : ∀ d, d < 32 → charToDigit (alphaChar d) = some d := by
  decide

/-- Characters outside the alphabet have no digit value. -/
theorem charToDigit_none (c : Char) (h : c ∉ symbols) : charToDigit c = none := by
  unfold charToDigit
  rw [List.findIdx?_eq_none_iff]
  intro x hx
  rw [beq_eq_false_iff_ne]
  exact fun he => h (he ▸ hx)

/-- The alphabet map is injective on base-32 digits. -/
theorem alphaChar_inj :
    ∀ x, x < 32 → ∀ y, y < 32 → alphaChar x = alphaChar y → x = y := by decide

/-- Lexicographic order of the symbol strings of two digit strings agrees
with lexicographic order of the digit strings. -/
theorem lex_map_alpha :
    ∀ (d₁ d₂ : List Nat), (∀ x ∈ d₁, x < 32) → (∀ x ∈ d₂, x < 32) →
      (List.Lex (· < ·) (d₁.map alphaChar) (d₂.map alphaChar) ↔
        List.Lex (· < ·) d₁ d₂) := by
  intro d₁
  induction d₁ with
  | nil =>
    intro d₂ _ _
    cases d₂ with
    | nil => exact ⟨fun h => (nomatch h), fun h => (nomatch h)⟩
    | cons y ys => exact ⟨fun _ => List.Lex.nil, fun _ => List.Lex.nil⟩
  | cons x xs ih =>
    intro d₂ h₁ h₂
    cases d₂ with
    | nil => exact ⟨fun h => (nomatch h), fun h => (nomatch h)⟩
    | cons y ys =>
      have hx : x < 32 := h₁ x (List.mem_cons_self x xs)
      have hy : y < 32 := h₂ y (List.mem_cons_self y ys)
      have hxs : ∀ z ∈ xs, z < 32 := fun z hz => h₁ z (List.mem_cons_of_mem x hz)
      have hys : ∀ z ∈ ys, z < 32 := fun z hz => h₂ z (List.mem_cons_of_mem y hz)
      simp only [List.map_cons]
      constructor
      · intro h
        rcases lex_cons_inv h with hc | ⟨hc, htl⟩
        · exact List.Lex.rel ((alphaChar_lt_iff x hx y hy).1 hc)
        · have hxy : x = y := alphaChar_inj x hx y hy hc
          subst hxy
          exact List.Lex.cons ((ih ys hxs hys).1 htl)
      · intro h
        rcases lex_cons_inv h with hc | ⟨hc, htl⟩
        · exact List.Lex.rel ((alphaChar_lt_iff x hx y hy).2 hc)
        · subst hc
          exact List.Lex.cons ((ih ys hxs hys).2 htl)

/-- Folding the eight bits of a byte onto an accumulator shifts the
accumulator by one byte and adds the byte. -/
theorem byteBits_foldl (a b : Nat) (hb : b < 256) :
    (byteBits b).foldl (fun acc x => acc * 2 + x) a = a * 256 + b := by
  unfold byteBits
  simp only [List.foldl]
  omega

/-- Bits are below two. -/
theorem byteBits_lt_two (b : Nat) : ∀ x ∈ byteBits b, x < 2 := by
  intro x hx
  simp only [byteBits, List.mem_cons, List.not_mem_nil, or_false] at hx
  rcases hx with h | h | h | h | h | h | h | h <;> omega

/-- The bit stream of a byte string folds to the big-endian byte value. -/
theorem flatMap_byteBits_foldl :
    ∀ (bs : List Nat) (a : Nat), (∀ x ∈ bs, x < 256) →
      (bs.flatMap byteBits).foldl (fun acc x => acc * 2 + x) a =
        bs.foldl (fun acc x => acc * 256 + x) a := by
  intro bs
  induction bs with
  | nil => intro a _; rfl
  | cons b bs ih =>
    intro a h
    have hb : b < 256 := h b (List.mem_cons_self b bs)
    have hbs : ∀ x ∈ bs, x < 256 := fun x hx => h x (List.mem_cons_of_mem b hx)
    rw [List.flatMap_cons, List.foldl_append, byteBits_foldl a b hb,
      List.foldl_cons]
    exact ih (a * 256 + b) hbs

/-- The bit stream of a byte string has eight bits per byte. -/
theorem flatMap_byteBits_length (bs : List Nat) :
    (bs.flatMap byteBits).length = 8 * bs.length := by
  induction bs with
  | nil => rfl
  | cons b bs ih =>
    simp only [List.flatMap_cons, List.length_append, ih, List.length_cons]
    simp [byteBits]
    omega

/-- All elements of the bit stream of a byte string are bits. -/
theorem flatMap_byteBits_lt (bs : List Nat) :
    ∀ x ∈ bs.flatMap byteBits, x < 2 := by
  intro x hx
  rw [List.mem_flatMap] at hx
  obtain ⟨b, _, hxb⟩ := hx
  exact byteBits_lt_two b x hxb

/-- Grouping produces one block per five stream elements. -/
theorem chunk5_length : ∀ l : List Nat, (chunk5 l).length = l.length / 5 := by
  intro l
  induction l using chunk5.induct with
  | case1 a b c d e rest ih =>
    simp [chunk5, ih]
    omega
  | case2 l h =>
    match l, h with
    | [], _ => simp [chunk5]
    | [a], h => simp [chunk5]
    | [a, b], h => simp [chunk5]
    | [a, b, c], h => simp [chunk5]
    | [a, b, c, d], h => simp [chunk5]
    | a :: b :: c :: d :: e :: rest, h => exact absurd rfl (h a b c d e rest)

/-- Every block produced by grouping has five elements, all drawn from the
stream. -/
theorem chunk5_mem :
    ∀ l : List Nat, ∀ c ∈ chunk5 l, c.length = 5 ∧ ∀ x ∈ c, x ∈ l := by
  intro l
  induction l using chunk5.induct with
  | case1 a b c d e rest ih =>
    intro blk hblk
    rw [show chunk5 (a :: b :: c :: d :: e :: rest) =
      [a, b, c, d, e] :: chunk5 rest from rfl] at hblk
    rcases List.mem_cons.mp hblk with h | h
    · subst h
      refine ⟨rfl, ?_⟩
      intro x hx
      simp only [List.mem_cons, List.not_mem_nil, or_false] at hx
      simp only [List.mem_cons]
      tauto
    · obtain ⟨hlen, hmem⟩ := ih blk h
      refine ⟨hlen, fun x hx => ?_⟩
      have := hmem x hx
      simp only [List.mem_cons]
      tauto
  | case2 l h =>
    match l, h with
    | [], _ => intro blk hblk; cases hblk
    | [a], h => intro blk hblk; cases hblk
    | [a, b], h => intro blk hblk; cases hblk
    | [a, b, c], h => intro blk hblk; cases hblk
    | [a, b, c, d], h => intro blk hblk; cases hblk
    | a :: b :: c :: d :: e :: rest, h => exact absurd rfl (h a b c d e rest)

/-- A block of five bits has value below 32. -/
theorem bits5_lt (c : List Nat) (hlen : c.length = 5) (hb : ∀ x ∈ c, x < 2) :
    bits5 c < 32 := by
  match c, hlen with
  | [a, b, x, d, e], _ =>
    have ha : a < 2 := hb a (by simp)
    have hbb : b < 2 := hb b (by simp)
    have hx : x < 2 := hb x (by simp)
    have hd : d < 2 := hb d (by simp)
    have he : e < 2 := hb e (by simp)
    simp only [bits5, List.foldl]
    omega

/-- Folding the base-32 digits of the grouped stream equals folding the
stream bit by bit, when the stream length is a multiple of five. -/
theorem chunk5_foldl (l : List Nat) :
    ∀ a : Nat, l.length % 5 = 0 →
      ((chunk5 l).map bits5).foldl (fun acc d => acc * 32 + d) a =
        l.foldl (fun acc x => acc * 2 + x) a := by
  induction l using chunk5.induct with
  | case1 b1 b2 b3 b4 b5 rest ih =>
    intro a hlen
    have hrest : rest.length % 5 = 0 := by
      simp only [List.length_cons] at hlen
      omega
    rw [show chunk5 (b1 :: b2 :: b3 :: b4 :: b5 :: rest) =
      [b1, b2, b3, b4, b5] :: chunk5 rest from rfl]
    simp only [List.map_cons, List.foldl]
    rw [ih _ hrest]
    have : a * 32 + bits5 [b1, b2, b3, b4, b5] =
        ((((a * 2 + b1) * 2 + b2) * 2 + b3) * 2 + b4) * 2 + b5 := by
      simp only [bits5, List.foldl]
      ring
    rw [this]
  | case2 l h =>
    match l, h with
    | [], _ => intro a _; rfl
    | [x], h => intro a hlen; simp at hlen
    | [x, y], h => intro a hlen; simp at hlen
    | [x, y, z], h => intro a hlen; simp at hlen
    | [x, y, z, w], h => intro a hlen; simp at hlen
    | a :: b :: c :: d :: e :: rest, h => exact absurd rfl (h a b c d e rest)

/-- Padding a 96-bit stream appends four zero bits. -/
theorem padBits_96 (l : List Nat) (h : l.length = 96) :
    padBits l = l ++ [0, 0, 0, 0] := by
  unfold padBits
  rw [h]
  rfl

/-- The digit string of a 12-byte value has 20 digits. -/
theorem encodeDigits_length (bs : List Nat) (h : bs.length = 12) :
    (encodeDigits bs).length = 20 := by
  unfold encodeDigits
  rw [List.length_map, chunk5_length, padBits_96 _ (by rw [flatMap_byteBits_length, h])]
  rw [List.length_append, flatMap_byteBits_length, h]
  rfl

/-- Every digit of an encoded byte string is a base-32 digit. -/
theorem encodeDigits_lt (bs : List Nat) : ∀ d ∈ encodeDigits bs, d < 32 := by
  intro d hd
  unfold encodeDigits at hd
  rw [List.mem_map] at hd
  obtain ⟨c, hc, rfl⟩ := hd
  obtain ⟨hlen, hmem⟩ := chunk5_mem _ c hc
  refine bits5_lt c hlen (fun x hx => ?_)
  have := hmem x hx
  rcases List.mem_append.mp this with h | h
  · exact flatMap_byteBits_lt bs x h
  · rw [List.mem_replicate] at h
    omega

/-- The base-32 value of the digit string of a 12-byte value is the byte
string value shifted past the four padding bits. -/
theorem encodeDigits_radix (bs : List Nat) (h12 : bs.length = 12)
    (hb : ∀ x ∈ bs, x < 256) :
    radixVal 32 (encodeDigits bs) = radixVal 256 bs * 16 := by
  unfold encodeDigits radixVal
  have hlen : (bs.flatMap byteBits).length = 96 := by
    rw [flatMap_byteBits_length, h12]
  rw [padBits_96 _ hlen]
  rw [chunk5_foldl _ 0 (by rw [List.length_append, hlen]; rfl)]
  rw [List.foldl_append]
  rw [flatMap_byteBits_foldl bs 0 hb]
  simp only [List.foldl]
  ring

/-- The encode output as a character list: digits mapped through the
alphabet.  The Specification check succeeds, so the unwrap took the ok
branch. -/
theorem encode_eq (id : ID) :
    id.encode = ⟨(encodeDigits id.val).map alphaChar⟩ := rfl

/-- Order on strings is lexicographic order on their character lists. -/
theorem string_lt_iff (l₁ l₂ : List Char) :
    (String.mk l₁ < String.mk l₂) ↔ List.Lex (· < ·) l₁ l₂ := by
  rw [String.lt_iff_toList_lt]
  exact Iff.rfl

/-- Length of a string built from a character list. -/
theorem string_mk_length (l : List Char) : (String.mk l).length = l.length := rfl

/-- Big-endian byte decomposition inverts the big-endian byte value. -/
theorem natToBytes_radixVal :
    ∀ l : List Nat, (∀ x ∈ l, x < 256) → natToBytes l.length (radixVal 256 l) = l := by
  intro l
  induction l using List.reverseRecOn with
  | nil => intro _; rfl
  | append_singleton l x ih =>
    intro h
    have hx : x < 256 := h x (by simp)
    have hl : ∀ y ∈ l, y < 256 := fun y hy => h y (by simp [hy])
    rw [List.length_append, List.length_singleton, radixVal_snoc]
    show natToBytes l.length ((radixVal 256 l * 256 + x) / 256) ++
      [(radixVal 256 l * 256 + x) % 256] = l ++ [x]
    have hdiv : (radixVal 256 l * 256 + x) / 256 = radixVal 256 l := by omega
    have hmod : (radixVal 256 l * 256 + x) % 256 = x := by omega
    rw [hdiv, hmod, ih hl]

/-- Decoding the symbol string of a digit string of base-32 digits recovers
the digits. -/
theorem decodeDigits_map :
    ∀ ds : List Nat, (∀ d ∈ ds, d < 32) →
      decodeDigits (ds.map alphaChar) = some ds := by
  intro ds
  induction ds with
  | nil => intro _; rfl
  | cons d ds ih =>
    intro h
    have hd : d < 32 := h d (List.mem_cons_self d ds)
    have hds : ∀ x ∈ ds, x < 32 := fun x hx => h x (List.mem_cons_of_mem d hx)
    simp only [List.map_cons, decodeDigits, charToDigit_alpha d hd, ih hds]

/-- A character string holding a character outside the alphabet has no digit
string. -/
theorem decodeDigits_none :
    ∀ cs : List Char, (∃ c ∈ cs, c ∉ symbols) → decodeDigits cs = none := by
  intro cs
  induction cs with
  | nil => rintro ⟨c, hc, _⟩; cases hc
  | cons c cs ih =>
    rintro ⟨x, hx, hxs⟩
    rcases List.mem_cons.mp hx with rfl | hmem
    · simp only [decodeDigits, charToDigit_none x hxs]
    · simp only [decodeDigits, ih ⟨x, hmem, hxs⟩]
      cases charToDigit c <;> rfl

/-- Reassembling the three big-endian counter bytes of a natural number
yields its low 24 bits. -/
theorem counter_bytes (i : Nat) :
    i / 2 ^ 16 % 256 * 2 ^ 16 + i / 2 ^ 8 % 256 * 2 ^ 8 + i % 256 = i % 2 ^ 24 := by
  omega

/-- C1: the counter field of a generated identifier is the fetch_add snapshot
of the generator counter reduced to its low 24 bits, and the identifier
generated right after it by the updated generator carries that value plus one
modulo 2^24. -/
theorem generate_counter_field (g : Generator) (ts ts' : Nat) :
    ((g.generate ts).1).counter = g.counter % 2 ^ 24 ∧
    ((((g.generate ts).2).generate ts').1).counter =
      (((g.generate ts).1).counter + 1) % 2 ^ 24 := by
  have h1 : ((g.generate ts).1).counter =
      g.counter / 2 ^ 16 % 256 * 2 ^ 16 + g.counter / 2 ^ 8 % 256 * 2 ^ 8 +
        g.counter % 256 := rfl
  have h2 : ((((g.generate ts).2).generate ts').1).counter =
      (g.counter + 1) % usizeSize / 2 ^ 16 % 256 * 2 ^ 16 +
        (g.counter + 1) % usizeSize / 2 ^ 8 % 256 * 2 ^ 8 +
        (g.counter + 1) % usizeSize % 256 := rfl
  rw [h1, h2]
  unfold usizeSize
  omega

/-- C2: a generated identifier stores the timestamp reduced modulo 2^32
(read back by time as seconds since the epoch), the machine id verbatim, and
the low 16 bits of the pid. -/
theorem generate_fields (g : Generator) (ts : Nat) (hm : g.machine_id.length = 3) :
    ((g.generate ts).1).time = ts % 2 ^ 32 ∧
    ((g.generate ts).1).machine = g.machine_id ∧
    ((g.generate ts).1).pid = g.pid % 2 ^ 16 := by
  refine ⟨?_, ?_, ?_⟩
  · have h : ((g.generate ts).1).time =
        ts % 2 ^ 32 / 2 ^ 24 % 256 * 2 ^ 24 + ts % 2 ^ 32 / 2 ^ 16 % 256 * 2 ^ 16 +
          ts % 2 ^ 32 / 2 ^ 8 % 256 * 2 ^ 8 + ts % 2 ^ 32 % 256 := rfl
    rw [h]
    omega
  · have h : ((g.generate ts).1).machine =
        [g.machine_id.getD 0 0, g.machine_id.getD 1 0, g.machine_id.getD 2 0] := rfl
    rw [h]
    match g, hm with
    | ⟨c, [a, b, d], p⟩, _ => rfl
  · have h : ((g.generate ts).1).pid =
        g.pid / 2 ^ 8 % 256 * 2 ^ 8 + g.pid % 256 := rfl
    rw [h]
    omega

/-- C2 witness: the field equalities evaluated on a concrete generator. -/
theorem generate_fields_witness :
    ((gW.generate 77).1).time = 77 % 2 ^ 32 ∧
    ((gW.generate 77).1).machine = gW.machine_id ∧
    ((gW.generate 77).1).pid = gW.pid % 2 ^ 16 :=
  generate_fields gW 77 (by decide)

/-- C6: identifier creation from a wall-clock reading succeeds exactly when
the clock is at or after the Unix epoch, in which case the identifier is
generated from the whole-second timestamp; a clock before the epoch is the
single error condition. -/
theorem new_id_ok_iff (g : Generator) (now : Int) :
    ((g.new_id now).isOk ↔ 0 ≤ now) ∧
    (0 ≤ now → g.new_id now =
      Except.ok (g.generate (now / 1000000000).toNat)) := by
  constructor
  · unfold Generator.new_id Generator.new_id_with_time
    by_cases h : 0 ≤ now <;> simp [h, Except.isOk, Except.toBool]
  · intro h
    unfold Generator.new_id Generator.new_id_with_time
    simp [h]

/-- C6 witness: creation succeeds at a clock two seconds past the epoch. -/
theorem new_id_ok_iff_witness :
    gW.new_id 2000000000 =
      Except.ok (gW.generate ((2000000000 : Int) / 1000000000).toNat) :=
  (new_id_ok_iff gW 2000000000).2 (by decide)

/-- C10: the Specification built by ID.encoding always succeeds on the fixed
32-symbol alphabet, so the unwrap inside ID.encode can never hit the error
branch, for any identifier. -/
theorem encoding_ok (id : ID) : id.encoding = Except.ok symbols := rfl

/-- C5: the encoded string has exactly 20 characters, each drawn from the
32-symbol alphabet of digits 0 to 9 and letters a to v. -/
theorem encode_length_alphabet (id : ID) (h : id.Wf) :
    id.encode.length = 20 ∧ ∀ c ∈ id.encode.data, c ∈ symbols := by
  rw [encode_eq]
  constructor
  · rw [string_mk_length, List.length_map]
    exact encodeDigits_length id.val h.1
  · intro c hc
    rw [show (String.mk ((encodeDigits id.val).map alphaChar)).data =
      (encodeDigits id.val).map alphaChar from rfl] at hc
    rw [List.mem_map] at hc
    obtain ⟨d, hd, rfl⟩ := hc
    exact alphaChar_mem d (encodeDigits_lt id.val d hd)

/-- C5 witness: the length and alphabet facts on a concrete identifier. -/
theorem encode_length_alphabet_witness :
    idA.encode.length = 20 ∧ ∀ c ∈ idA.encode.data, c ∈ symbols :=
  encode_length_alphabet idA (by decide)

/-- C3: byte-wise lexicographic order of two identifiers agrees with
lexicographic string order of their encodings. -/
theorem encode_order_iff (a b : ID) (ha : a.Wf) (hb : b.Wf) :
    a.val < b.val ↔ a.encode < b.encode := by
  rw [encode_eq, encode_eq, string_lt_iff,
    lex_map_alpha _ _ (encodeDigits_lt a.val) (encodeDigits_lt b.val)]
  show List.Lex (· < ·) a.val b.val ↔ _
  rw [lex_iff_radix 256 (by norm_num) a.val b.val (ha.1.trans hb.1.symm) ha.2 hb.2,
    lex_iff_radix 32 (by norm_num) _ _
      ((encodeDigits_length a.val ha.1).trans (encodeDigits_length b.val hb.1).symm)
      (encodeDigits_lt a.val) (encodeDigits_lt b.val),
    encodeDigits_radix a.val ha.1 ha.2, encodeDigits_radix b.val hb.1 hb.2]
  omega

/-- C3 witness: order agreement applied at two concrete identifiers. -/
theorem encode_order_iff_witness : idA.encode < idB.encode :=
  (encode_order_iff idA idB (by decide) (by decide)).1 (by decide)

/-- C4: decode inverts encode on every well-formed identifier, and rejects
strings of the wrong length and strings with characters outside the
alphabet with the matching CodecError. -/
theorem decode_encode (id : ID) (h : id.Wf) :
    decode id.encode = Except.ok id ∧
    (∀ s : String, s.data.length ≠ 20 →
      decode s = Except.error CodecError.invalidLength) ∧
    (∀ s : String, s.data.length = 20 → (∃ c ∈ s.data, c ∉ symbols) →
      decode s = Except.error CodecError.invalidChar) := by
  refine ⟨?_, ?_, ?_⟩
  · obtain ⟨v⟩ := id
    obtain ⟨hlen, hb⟩ := h
    rw [encode_eq]
    unfold decode
    rw [show (String.mk ((encodeDigits v).map alphaChar)).data =
      (encodeDigits v).map alphaChar from rfl]
    have hlen20 : ((encodeDigits v).map alphaChar).length = 20 := by
      rw [List.length_map]
      exact encodeDigits_length v hlen
    rw [if_pos hlen20, decodeDigits_map _ (encodeDigits_lt v)]
    show Except.ok ⟨natToBytes 12 (radixVal 32 (encodeDigits v) / 16)⟩ =
      Except.ok (⟨v⟩ : ID)
    rw [show radixVal 32 (encodeDigits v) = radixVal 256 v * 16 from
      encodeDigits_radix v hlen hb]
    rw [Nat.mul_div_cancel _ (by norm_num : (0 : Nat) < 16)]
    rw [show (12 : Nat) = v.length from hlen.symm, natToBytes_radixVal v hb]
  · intro s hs
    unfold decode
    rw [if_neg hs]
  · intro s hs hex
    unfold decode
    rw [if_pos hs, decodeDigits_none s.data hex]

/-- C4 witness: the round trip evaluated at a concrete identifier. -/
theorem decode_encode_witness : decode idA.encode = Except.ok idA :=
  (decode_encode idA (by decide)).1

/-- A byte list with all entries below 256 reads below 256 at any index. -/
theorem getD_lt_256 (l : List Nat) (h : ∀ x ∈ l, x < 256) (i : Nat) :
    l.getD i 0 < 256 := by
  rcases hx : l.get? i with _ | x
  · rw [List.getD, hx, Option.getD_none]
    omega
  · rw [List.getD, hx, Option.getD_some]
    exact h x (List.get?_mem hx)

/-- The counter seed is the big-endian value of three random bytes, hence
below 2 to the 24. -/
theorem rand_int_lt (env : Env) (hr : ∀ x ∈ env.rand_counter, x < 256) :
    rand_int env < 2 ^ 24 := by
  unfold rand_int
  have h0 := getD_lt_256 env.rand_counter hr 0
  have h1 := getD_lt_256 env.rand_counter hr 1
  have h2 := getD_lt_256 env.rand_counter hr 2
  omega

/-- Machine-id derivation succeeds whenever the hostname is valid Unicode
or the platform machine-id read returns nonempty contents. -/
theorem read_machine_id_isSome (md5_3 : String → List Nat) (env : Env)
    (h : env.hostname.isSome = true ∨
      ∃ s, env.platform_machine_id = Except.ok s ∧ 0 < s.length) :
    (read_machine_id md5_3 env).isSome = true := by
  simp only [read_machine_id, hostname_string]
  cases hpm : env.platform_machine_id with
  | ok x =>
    by_cases hx : 0 < x.length
    · simp only [hx, if_true]
      split <;> rfl
    · rcases h with hh | ⟨s, hs, hslen⟩
      · obtain ⟨v, hv⟩ := Option.isSome_iff_exists.mp hh
        simp only [hx, if_false, hv]
        split <;> rfl
      · rw [hpm] at hs
        injection hs with he
        exact absurd (he ▸ hslen) hx
  | error e =>
    rcases h with hh | ⟨s, hs, _⟩
    · obtain ⟨v, hv⟩ := Option.isSome_iff_exists.mp hh
      simp only [hv]
      split <;> rfl
    · rw [hpm] at hs
      exact Except.noConfusion hs

/-- C7 counterexample: with a failing platform machine-id read and a
hostname that is not valid Unicode, generator construction panics (the
unwrap inside hostname_string), refuting infallibility as claimed. -/
theorem new_generator_panics : new_generator md5z crc0 envBad = none := rfl

/-- C7 amended: generator construction succeeds whenever the hostname
converts to a Unicode string or the platform machine-id read returns
nonempty contents; failing platform-id and cpuset reads degrade silently,
but a non-Unicode hostname panics. -/
theorem new_generator_total (md5_3 : String → List Nat) (crc32 : List Nat → Nat)
    (env : Env)
    (h : env.hostname.isSome = true ∨
      ∃ s, env.platform_machine_id = Except.ok s ∧ 0 < s.length) :
    (new_generator md5_3 crc32 env).isSome = true := by
  unfold new_generator
  have hs := read_machine_id_isSome md5_3 env h
  cases hrm : read_machine_id md5_3 env with
  | none => rw [hrm] at hs; exact Bool.noConfusion hs
  | some m => rfl

/-- C7 witness: construction succeeds in an environment with a failing
platform machine-id read and a Unicode hostname. -/
theorem new_generator_total_witness :
    (new_generator md5z crc0 envGood).isSome = true :=
  new_generator_total md5z crc0 envGood (Or.inl rfl)

/-- C8 counterexample: when the three random seed bytes are all zero the
counter is initialized to zero, refuting the never-zero part of the claim. -/
theorem counter_seed_can_be_zero :
    rand_int envZero = 0 ∧
      new_generator md5z crc0 envZero = some ⟨0, [0, 0, 0], 1⟩ := ⟨rfl, rfl⟩

/-- C8 amended: at generator construction the counter is initialized to the
24-bit value of three random bytes, hence below 2 to the 24; zero is
possible. -/
theorem counter_seed_lt (md5_3 : String → List Nat) (crc32 : List Nat → Nat)
    (env : Env) (g : Generator) (hr : ∀ x ∈ env.rand_counter, x < 256)
    (hg : new_generator md5_3 crc32 env = some g) : g.counter < 2 ^ 24 := by
  have hv : g.counter = rand_int env := by
    unfold new_generator at hg
    cases hrm : read_machine_id md5_3 env with
    | none => rw [hrm] at hg; exact Option.noConfusion hg
    | some m =>
      rw [hrm] at hg
      have he := Option.some.inj hg
      rw [← he]
  rw [hv]
  exact rand_int_lt env hr

/-- C8 witness: the bound applied to the generator built in a concrete
environment. -/
theorem counter_seed_lt_witness : (⟨66051, [0, 0, 0], 5⟩ : Generator).counter < 2 ^ 24 :=
  counter_seed_lt md5z crc0 envGood ⟨66051, [0, 0, 0], 5⟩ (by decide) rfl

/-- The counter field of a generated identifier is the low 24 bits of the
fetch_add snapshot. -/
theorem generate_counter_val (g : Generator) (ts : Nat) :
    ((g.generate ts).1).counter = g.counter % 2 ^ 24 := by
  have h : ((g.generate ts).1).counter =
      g.counter / 2 ^ 16 % 256 * 2 ^ 16 + g.counter / 2 ^ 8 % 256 * 2 ^ 8 +
        g.counter % 256 := rfl
  rw [h]
  omega

/-- The generator counter after one generate call. -/
theorem generate_counter_state (g : Generator) (ts : Nat) :
    ((g.generate ts).2).counter = (g.counter + 1) % usizeSize := rfl

/-- The identifier at position i of a linearized run of n generate calls
carries counter field (initial counter + i) reduced modulo the usize size
and to 24 bits. -/
theorem generateSeq_counter :
    ∀ (n : Nat) (g : Generator) (ts i : Nat), i < n → g.counter < usizeSize →
      (((generateSeq g ts n).getD i ⟨[]⟩)).counter =
        (g.counter + i) % usizeSize % 2 ^ 24 := by
  intro n
  induction n with
  | zero => intro g ts i hi _; exact absurd hi (Nat.not_lt_zero i)
  | succ n ih =>
    intro g ts i hi hc
    show (((g.generate ts).1 :: generateSeq (g.generate ts).2 ts n).getD i ⟨[]⟩).counter = _
    cases i with
    | zero =>
      rw [List.getD_cons_zero, generate_counter_val]
      unfold usizeSize at hc ⊢
      rw [Nat.add_zero, Nat.mod_eq_of_lt hc]
    | succ i =>
      rw [List.getD_cons_succ]
      rw [ih (g.generate ts).2 ts i (by omega)
        (by rw [generate_counter_state]; exact Nat.mod_lt _ (by norm_num [usizeSize]))]
      rw [generate_counter_state]
      unfold usizeSize
      omega

/-- C9: in any schedule of n concurrent callers sharing one generator, the
fetch_add snapshots are pairwise distinct, so absent counter wraparound the
n identifiers carry pairwise distinct counter fields. -/
theorem concurrent_counters_distinct (g : Generator) (ts n : Nat)
    (σ : Fin n → Fin n) (hσ : Function.Injective σ)
    (hc : g.counter < usizeSize)
    (hwrap24 : g.counter % 2 ^ 24 + n ≤ 2 ^ 24)
    (hwrap64 : g.counter + n ≤ usizeSize)
    (i j : Fin n) (hij : i ≠ j) :
    (((generateSeq g ts n).getD (σ i) ⟨[]⟩)).counter ≠
      (((generateSeq g ts n).getD (σ j) ⟨[]⟩)).counter := by
  rw [generateSeq_counter n g ts (σ i) (σ i).isLt hc,
    generateSeq_counter n g ts (σ j) (σ j).isLt hc]
  have hne : ((σ i : Nat)) ≠ ((σ j : Nat)) :=
    fun hv => hij (hσ (Fin.ext hv))
  have h1 : ((σ i : Nat)) < n := (σ i).isLt
  have h2 : ((σ j : Nat)) < n := (σ j).isLt
  unfold usizeSize at hc hwrap64 ⊢
  omega

/-- C9 witness: two of three scheduled callers on a concrete generator get
distinct counter fields. -/
theorem concurrent_counters_distinct_witness :
    (((generateSeq gW 0 3).getD ((0 : Fin 3) : Nat) ⟨[]⟩)).counter ≠
      (((generateSeq gW 0 3).getD ((1 : Fin 3) : Nat) ⟨[]⟩)).counter :=
  concurrent_counters_distinct gW 0 3 (fun k => k) (fun _ _ hv => hv)
    (by decide) (by decide) (by decide) 0 1 (by decide)

end LibXid
